import Mathlib

set_option maxRecDepth 4000

/-
Shallow embedding of the path / diff / mutation core of the ygot repository.

Embedded source files:
  * src/ygot/diff.go   : pathSpec and its Equal method, path construction
    (schemaPathTogNMIPath, joingNMIPaths, nodeRootPath, nodeChildPath,
    nodeMapPath), findSetLeaves, leastSpecificPath, toStringPathMap,
    appendUpdate, Diff, and the option handling (hasIgnoreAdditions,
    hasDiffPathOpt).
  * src/ygot/diff.go (ytypes part) : UnmarshalNotifications,
    UnmarshalSetRequest, deletePaths, replacePaths, updatePaths,
    joinPrefixToUpdate, setNode.
  * src/ygen/schematree.go : splitXPATHParts, removeXPATHNamespaces,
    fixSchemaTreePath.

gNMI paths are modelled by their Elem list only (the v0.4.0 format used
throughout diff.go): a list of elements, each a name plus an ordered
key-name to string-value association list.  Machine integers do not occur
in the embedded code; Go strings are modelled as Lean String.
-/

namespace Ygot

/-- A gNMI PathElem: a name together with an ordered key map
(gnmipb.PathElem with Name and Key). -/
structure PathElem where
  name : String
  key : List (String × String)
deriving DecidableEq

/-- A gNMI Path, modelled by its Elem field only (v0.4.0 format). -/
abbrev GPath := List PathElem

/-- pathSpec from diff.go: the set of gNMI paths to which a value within a
GoStruct corresponds. -/
structure PathSpecL where
  gNMIPaths : List GPath
deriving DecidableEq

/-- schemaPathTogNMIPath from diff.go: turn a schema path (list of names)
into a gNMI path whose elements carry no keys. -/
def schemaPathTogNMIPath (path : List String) : GPath :=
  path.map (fun pe => ⟨pe, []⟩)

/-- joingNMIPaths from diff.go: concatenate the child path onto a clone of
the parent path (only the Elem field is populated, so this is list append). -/
def joingNMIPaths (parent child : GPath) : GPath :=
  parent ++ child

/-- pathSpec.Equal from diff.go.  The receiver and argument are pointers that
may be nil, modelled with Option; the Go code returns the pointer comparison
p == o when either is nil, and otherwise checks that every path of p has a
proto-equal path in o (proto.Equal on Elem-only paths is structural
equality). -/
def pathSpecEqual : Option PathSpecL → Option PathSpecL → Bool
  | none, none => true
  | none, some _ => false
  | some _, none => false
  | some p, some o =>
      p.gNMIPaths.all (fun path => o.gNMIPaths.any (fun otherPath => path = otherPath))

/- ----------------------------------------------------------------- -/
/- src/ygen/schematree.go : XPATH sanitisation for leafref resolution -/
/- ----------------------------------------------------------------- -/

/-- Character loop of splitXPATHParts from schematree.go, carried out over
the explicit character list of the path with the current buffer and the
in-key flag as accumulators. -/
def splitXPATHPartsAux : List Char → List String → String → Bool → List String
  | [], parts, buf, _ => if buf = "" then parts else parts ++ [buf]
  | c :: cs, parts, buf, inKey =>
    if c = '/' then
      if inKey then splitXPATHPartsAux cs parts buf inKey
      else splitXPATHPartsAux cs (parts ++ [buf]) "" inKey
    else if c = '[' then splitXPATHPartsAux cs parts buf true
    else if c = ']' then splitXPATHPartsAux cs parts buf false
    else if inKey then splitXPATHPartsAux cs parts buf inKey
    else splitXPATHPartsAux cs parts (buf.push c) inKey

/-- splitXPATHParts from schematree.go: split a YANG XPATH on the slashes
that are not inside a bracketed key predicate, discarding the predicate
text entirely. -/
def splitXPATHParts (path : String) : List String :=
  splitXPATHPartsAux path.data [] "" false

/-- Structural splitting of a string on a separator character; the model of
Go strings.Split with a one-character separator (Lean String.splitOn is not
kernel-reducible, so the split is spelled out structurally). -/
def splitOnCharAux (sep : Char) : List Char → String → List String
  | [], buf => [buf]
  | c :: cs, buf =>
    if c = sep then buf :: splitOnCharAux sep cs ""
    else splitOnCharAux sep cs (buf.push c)

/-- Split a string on a separator character (Go strings.Split semantics). -/
def splitOnChar (sep : Char) (s : String) : List String :=
  splitOnCharAux sep s.data ""

/-- removeXPATHNamespaces from schematree.go: strip a single namespace
prefix from each path element; an element with more than one colon is an
error. -/
def removeXPATHNamespaces (path : List String) : Except String (List String) :=
  match path with
  | [] => .ok []
  | p :: rest =>
    if p.data.contains ':' then
      match splitOnChar ':' p with
      | [_, second] => do
        let fixedRest ← removeXPATHNamespaces rest
        .ok (second :: fixedRest)
      | _ => .error "invalid path element that contains multiple namespace specifiers"
    else do
      let fixedRest ← removeXPATHNamespaces rest
      .ok (p :: fixedRest)

/-- The relative-path loop of fixSchemaTreePath from schematree.go: for each
token, a double-dot removes one trailing segment from the caller path (an
error if the caller path is already empty), and any other token is appended
to the remaining path; the result is the reduced caller path followed by
the collected remaining tokens. -/
def fixSchemaTreePathLoop : List String → List String → List String → Except String (List String)
  | callerPath, remaining, [] => .ok (callerPath ++ remaining)
  | [], remaining, p :: ps =>
    if p = ".." then .error "invalid path specified, tries to recurse above the root"
    else fixSchemaTreePathLoop [] (remaining ++ [p]) ps
  | c :: cs, remaining, p :: ps =>
    if p = ".." then fixSchemaTreePathLoop (c :: cs).dropLast remaining ps
    else fixSchemaTreePathLoop (c :: cs) (remaining ++ [p]) ps

/-- The context entry handed to fixSchemaTreePath, represented by the string
that util.SchemaTreePath returns for it.  util.SchemaTreePath is not part
of the embedded sources; per the spec it is the normalized absolute path of
the entry, a slash-separated string of the form /module/segment/...; a
module root yields a string whose slash-split has fewer than two parts. -/
structure CallerEntry where
  schemaTreePath : String
deriving DecidableEq

/-- fixSchemaTreePath from schematree.go: sanitise a YANG leafref path for
lookup in the schema tree.  A nil caller is modelled by none.  An empty
parts list makes the Go code panic on parts[0]; that case is mapped to an
error value here and is outside every theorem below. -/
def fixSchemaTreePath (path : String) (caller : Option CallerEntry) : Except String (List String) := do
  let parts ← removeXPATHNamespaces (splitXPATHParts path)
  match parts with
  | [] => .error "index out of range: empty split path"
  | p0 :: rest =>
    if p0 ≠ ".." then
      if p0 = "" then .ok rest
      else .error "path statement has to begin with either double-dot-slash or slash"
    else
      match caller with
      | none => .error "calling node must be specified when mapping relative path"
      | some c =>
        let cpathparts := splitOnChar '/' c.schemaTreePath
        if cpathparts.length < 2 then
          .error "invalid calling node, was a module"
        else
          fixSchemaTreePathLoop (cpathparts.drop 2) [] (p0 :: rest)

/-- Formalisation of claim C6 in the words of the spec sentence it cites:
walk up from the context path one segment per LEADING double-dot token only,
then append all remaining tokens (including any interior double-dot tokens)
to the walked-up context path.  Written to be compared with
fixSchemaTreePath, which is translated from the source. -/
def fixSchemaTreePathClaimC6 (path : String) (caller : Option CallerEntry) : Except String (List String) := do
  let parts ← removeXPATHNamespaces (splitXPATHParts path)
  match parts with
  | [] => .error "index out of range: empty split path"
  | p0 :: rest =>
    if p0 ≠ ".." then
      if p0 = "" then .ok rest
      else .error "path statement has to begin with either double-dot-slash or slash"
    else
      match caller with
      | none => .error "calling node must be specified when mapping relative path"
      | some c =>
        let cpathparts := splitOnChar '/' c.schemaTreePath
        if cpathparts.length < 2 then
          .error "invalid calling node, was a module"
        else
          let callerPath := cpathparts.drop 2
          let leading := (p0 :: rest).takeWhile (fun p => p = "..")
          let remaining := (p0 :: rest).dropWhile (fun p => p = "..")
          if callerPath.length < leading.length then
            .error "invalid path specified, tries to recurse above the root"
          else
            .ok (callerPath.take (callerPath.length - leading.length) ++ remaining)

/- ------------------------------------------------------------------ -/
/- ytypes part of src/ygot/diff.go : the mutation engine              -/
/- ------------------------------------------------------------------ -/

/-- A leaf value: the opaque comparable payload of the external encoding
layer (spec section 6).  Deep equality is structural equality on this type. -/
inductive Value where
  | intV (v : Int)
  | strV (v : String)
  | boolV (v : Bool)
  | enumV (v : Int)
deriving DecidableEq

/-- The mutated data tree, reduced to its flat leaf content: an association
list from absolute gNMI path to leaf value. -/
abbrev MTree := List (GPath × Value)

/-- Look up the value stored at an exact path of the tree. -/
def treeLookup (t : MTree) (k : GPath) : Option Value :=
  match t with
  | [] => none
  | e :: rest => if e.1 = k then some e.2 else treeLookup rest k

/-- Remove every leaf at or below the given path (the subtree rooted there). -/
def treeDeleteSub (t : MTree) (p : GPath) : MTree :=
  t.filter (fun e => decide (¬ p <+: e.1))

/-- Bind the given path to the value, replacing any previous binding. -/
def treeUpsert (t : MTree) (p : GPath) (v : Value) : MTree :=
  (p, v) :: t.filter (fun e => decide (e.1 ≠ p))

/-- The schema consulted by the mutation operations: the set of addressable
leaf paths. -/
structure MSchema where
  valid : List GPath
deriving DecidableEq

/-- Modelled from the spec: ytypes.DeleteNode is not among the embedded
sources.  Per spec section 4.5 it removes the addressed subtree, an empty
address meaning everything under the subject, and fails on an address the
schema cannot resolve. -/
def deleteNodeM (schema : MSchema) (t : MTree) (path : GPath) : Except String MTree :=
  if path = [] ∨ path ∈ schema.valid then .ok (treeDeleteSub t path)
  else .error "cannot delete node at unknown path"

/-- Modelled from the spec: ytypes.SetNode (as invoked by setNode in the
source, always with InitMissingElements) is not among the embedded sources.
Per spec section 4.5 it sets the address to the value with get-or-create
semantics; an unknown address is an error unless unrecognised fields are
tolerated. -/
def setNodeM (schema : MSchema) (t : MTree) (path : GPath) (v : Value) (ignoreExtraFields : Bool) : Except String MTree :=
  if path ∈ schema.valid then .ok (treeUpsert t path v)
  else if ignoreExtraFields then .ok t
  else .error "setNode: unknown path"

/-- Modelled from the spec: util.JoinPaths is not among the embedded
sources; per spec section 4.5 the carried prefix is joined onto each
operation address, which for Elem-only paths is concatenation. -/
def joinPathsM (pfx path : GPath) : GPath :=
  pfx ++ path

/-- A gNMI Update: a path together with its (already decoded) value. -/
structure UpdateM where
  path : GPath
  val : Value
deriving DecidableEq

/-- joinPrefixToUpdate from the source: a nil prefix leaves the update
untouched, otherwise a new update is returned whose path has the prefix
joined on and whose value is preserved. -/
def joinPrefixToUpdateM (pfx : Option GPath) (u : UpdateM) : UpdateM :=
  match pfx with
  | none => u
  | some p => ⟨joinPathsM p u.path, u.val⟩

/-- The conditional prefix join of deletePaths: a nil prefix leaves the
path untouched, otherwise the prefix is joined on. -/
def joinDeletePath (pfx : Option GPath) (p : GPath) : GPath :=
  match pfx with
  | none => p
  | some pr => joinPathsM pr p

/-- deletePaths from the source: delete each path in order, joining the
carried prefix when present; the first failing deletion stops the loop.
The pair returned models in-place mutation of the Go tree: the tree
component is the state the completed operations produced, whether or not
an error occurred. -/
def deletePathsGo (schema : MSchema) (t : MTree) (pfx : Option GPath) (paths : List GPath) : Option String × MTree :=
  match paths with
  | [] => (none, t)
  | p :: ps =>
    match deleteNodeM schema t (joinDeletePath pfx p) with
    | .error e => (some e, t)
    | .ok t2 => deletePathsGo schema t2 pfx ps

/-- replacePaths from the source: for each update in order, join the
prefix, delete the value at the update path, then set the update path to
the update value; the first failing step stops the loop.  The returned
tree is the in-place state at that point. -/
def replacePathsGo (schema : MSchema) (t : MTree) (pfx : Option GPath) (updates : List UpdateM) (ignoreExtraFields : Bool) : Option String × MTree :=
  match updates with
  | [] => (none, t)
  | u :: us =>
    let u2 := joinPrefixToUpdateM pfx u
    match deleteNodeM schema t u2.path with
    | .error e => (some e, t)
    | .ok t2 =>
      match setNodeM schema t2 u2.path u2.val ignoreExtraFields with
      | .error e => (some e, t2)
      | .ok t3 => replacePathsGo schema t3 pfx us ignoreExtraFields

/-- updatePaths from the source: for each update in order, join the prefix
and set the update path to the update value; the first failing step stops
the loop. -/
def updatePathsGo (schema : MSchema) (t : MTree) (pfx : Option GPath) (updates : List UpdateM) (ignoreExtraFields : Bool) : Option String × MTree :=
  match updates with
  | [] => (none, t)
  | u :: us =>
    let u2 := joinPrefixToUpdateM pfx u
    match setNodeM schema t u2.path u2.val ignoreExtraFields with
    | .error e => (some e, t)
    | .ok t2 => updatePathsGo schema t2 pfx us ignoreExtraFields

/-- A gNMI SetRequest: optional prefix plus the delete, replace and update
operation lists. -/
structure SetRequestM where
  pfx : Option GPath
  delete : List GPath
  replace : List UpdateM
  update : List UpdateM
deriving DecidableEq

/-- UnmarshalSetRequest from the source: a nil request is a no-op returning
nil error; otherwise deletes, then replaces, then updates are processed,
each phase stopping the whole call at its first error.  Prefix resolution
through getOrCreateNode is modelled by its fallback branch, which carries
the request prefix onto every individual operation (spec section 4.5 step 1
states that both branches address the same locations).  The preferShadowPath
option only alters address resolution inside the unembedded ytypes helpers
and is not modelled. -/
def unmarshalSetRequestGo (schema : MSchema) (t : MTree) (req : Option SetRequestM) (ignoreExtraFields : Bool) : Option String × MTree :=
  match req with
  | none => (none, t)
  | some r =>
    match deletePathsGo schema t r.pfx r.delete with
    | (some e, t2) => (some e, t2)
    | (none, t2) =>
      match replacePathsGo schema t2 r.pfx r.replace ignoreExtraFields with
      | (some e, t3) => (some e, t3)
      | (none, t3) => updatePathsGo schema t3 r.pfx r.update ignoreExtraFields

/-- A gNMI Notification as consumed by UnmarshalNotifications: optional
prefix, delete paths, updates, and the atomic flag. -/
structure NotificationM where
  pfx : Option GPath
  delete : List GPath
  update : List UpdateM
  atomic : Bool
deriving DecidableEq

/-- The SetRequest that UnmarshalNotifications builds from one
notification: its prefix, its delete list with an empty path appended
when the notification is atomic, no replaces, and its updates. -/
def reqOfNotification (n : NotificationM) : SetRequestM :=
  ⟨n.pfx, if n.atomic then n.delete ++ [([] : GPath)] else n.delete, [], n.update⟩

/-- UnmarshalNotifications from the source: each notification is turned
into a SetRequest carrying its prefix, delete list (with an empty path
appended when the notification is atomic) and update list, and the
requests are applied in order, stopping at the first error. -/
def unmarshalNotificationsGo (schema : MSchema) (t : MTree) (ns : List NotificationM) (ignoreExtraFields : Bool) : Option String × MTree :=
  match ns with
  | [] => (none, t)
  | n :: rest =>
    match unmarshalSetRequestGo schema t (some (reqOfNotification n)) ignoreExtraFields with
    | (some e, t2) => (some e, t2)
    | (none, t2) => unmarshalNotificationsGo schema t2 rest ignoreExtraFields

/- ------------------------------------------------------------------ -/
/- ygot part of src/ygot/diff.go : flattening and the diff engine     -/
/- ------------------------------------------------------------------ -/

/-- Modelled from the spec: ygot.PathToString is not among the embedded
sources; per the spec it renders an address as its canonical string form.
Elem-only v0.4.0 paths never make it fail, so it is total here. -/
def pathElemToString (e : PathElem) : String :=
  e.name ++ String.join (e.key.map (fun kv => "[" ++ kv.1 ++ "=" ++ kv.2 ++ "]"))

/-- String form of a whole gNMI path. -/
def pathToStringL (p : GPath) : String :=
  String.join (p.map (fun e => "/" ++ pathElemToString e))

/-- Insert a string into an ascending list (helper for the model of Go
sort.Strings). -/
def insertSorted (s : String) : List String → List String
  | [] => [s]
  | t :: ts => if t < s then t :: insertSorted s ts else s :: t :: ts

/-- Ascending sort of a string list (Go sort.Strings). -/
def sortStrings : List String → List String
  | [] => []
  | s :: ss => insertSorted s (sortStrings ss)

/-- Join a string list with a separator (Go strings.Join). -/
def joinStrings (sep : String) : List String → String
  | [] => ""
  | [s] => s
  | s :: s2 :: rest => s ++ sep ++ joinStrings sep (s2 :: rest)

/-- A list-entry key value as supplied by the generated code.  The badK
constructor stands for a key of a type the stringification step cannot
handle. -/
inductive KeyVal where
  | intK (v : Int)
  | strK (v : String)
  | boolK (v : Bool)
  | badK
deriving DecidableEq

/-- Modelled from the spec: KeyValueAsString semantics used by
keyMapAsStrings (not among the embedded sources): each key leaf value is
stringified per its semantic type and an unsupported type is an error. -/
def keyValAsString : KeyVal → Except String String
  | .intK v => .ok (toString v)
  | .strK v => .ok v
  | .boolK v => .ok (cond v "true" "false")
  | .badK => .error "cannot stringify unsupported key type"

/-- A list entry seen through the KeyHelperGoStruct capability: its
key-map extraction, which may fail. -/
structure KeyHelperEntry where
  listKeyMap : Except String (List (String × KeyVal))

/-- Modelled from the spec: keyMapAsStrings (not among the embedded
sources) converts a key map to a string-to-string map, failing if any key
leaf cannot be stringified. -/
def keyMapAsStrings (keys : List (String × KeyVal)) : Except String (List (String × String)) :=
  match keys with
  | [] => .ok []
  | (k, v) :: rest => do
    let s ← keyValAsString v
    let restS ← keyMapAsStrings rest
    .ok ((k, s) :: restS)

/-- The assignment np.Elem[len(p.Elem)-1].Key = strkeys from nodeMapPath:
attach the key map to the final element of a path.  An empty path makes
the Go code panic on the negative index; that case returns the path
unchanged here and is outside every theorem below. -/
def setLastKey : GPath → List (String × String) → GPath
  | [], _ => []
  | [e], ks => [⟨e.name, ks⟩]
  | e :: e2 :: rest, ks => e :: setLastKey (e2 :: rest) ks

/-- nodeMapPath from diff.go: obtain the entry key map, stringify it, and
attach it to the final element of every address of the owning list field;
a missing parent path is an error. -/
def nodeMapPath (entry : KeyHelperEntry) (parentPath : Option PathSpecL) : Except String PathSpecL := do
  let keys ← entry.listKeyMap
  let strkeys ← keyMapAsStrings keys
  match parentPath with
  | none => .error "invalid list member with no parent"
  | some pp => .ok ⟨pp.gNMIPaths.map (fun p => setLastKey p strkeys)⟩

/-- nodeRootPath from diff.go: the path of a node at the root of the tree,
one address per declared schema path. -/
def nodeRootPath (schemaPaths : List (List String)) : PathSpecL :=
  ⟨schemaPaths.map schemaPathTogNMIPath⟩

/-- nodeChildPath from diff.go: append each declared schema path of the
child to each address of the parent (the nil-parent error branch of the
source is routed to nodeRootPath by nodeValuePath before this is reached
in the functional embedding). -/
def nodeChildPath (parentPath : PathSpecL) (schemaPaths : List (List String)) : PathSpecL :=
  ⟨(parentPath.gNMIPaths.map
      (fun p => schemaPaths.map (fun s => joingNMIPaths p (schemaPathTogNMIPath s)))).flatten⟩

/-- The loop of leastSpecificPath from diff.go, with the running shortest
path as accumulator (none models the initial Go nil slice). -/
def leastSpecificPathLoop : Option (List String) → List (List String) → Option (List String)
  | short, [] => short
  | short, p :: ps =>
    let short1 := match short with
      | none => some p
      | some s => some s
    let short2 := match short1 with
      | none => some p
      | some s => if p.length < s.length then some p else some s
    leastSpecificPathLoop short2 ps

/-- leastSpecificPath from diff.go: the shortest path of the slice, the
first one on ties.  (Go nil-slice elements are indistinguishable from
empty paths in this model; schema path tags never produce nil paths.) -/
def leastSpecificPath (paths : List (List String)) : Option (List String) :=
  leastSpecificPathLoop none paths

/-- The collapse step applied by findSetLeaves under MapToSinglePath:
sp = [leastSpecificPath(sp)].  The none branch is unreachable in
findSetLeaves because an empty schema path set errors out first. -/
def collapseToSinglePath (sp : List (List String)) : List (List String) :=
  match leastSpecificPath sp with
  | some r => [r]
  | none => sp

/-- DiffPathOpt from diff.go. -/
structure DiffPathOptL where
  mapToSinglePath : Bool
  preferShadowPath : Bool
deriving DecidableEq

/-- The options accepted by Diff: IgnoreAdditions and DiffPathOpt. -/
inductive DiffOptL where
  | ignoreAdditions
  | pathOpt (o : DiffPathOptL)
deriving DecidableEq

/-- hasIgnoreAdditions from diff.go: the first IgnoreAdditions of the
option slice, none when absent. -/
def hasIgnoreAdditions : List DiffOptL → Option Unit
  | [] => none
  | .ignoreAdditions :: _ => some ()
  | .pathOpt _ :: rest => hasIgnoreAdditions rest

/-- hasDiffPathOpt from diff.go: the first DiffPathOpt of the option
slice, none when absent. -/
def hasDiffPathOpt : List DiffOptL → Option DiffPathOptL
  | [] => none
  | .pathOpt o :: _ => some o
  | .ignoreAdditions :: rest => hasDiffPathOpt rest

/-- A leaf field value as seen by the reflective walk: an unset (nil
pointer) leaf, a set pointer leaf, or an enum held by value. -/
inductive LeafVal where
  | unset
  | val (v : Value)
  | enum (i : Int)
deriving DecidableEq

/-- The struct-field metadata the walk reads from a field: its name, its
declared schema paths (the path tag), its shadow paths (the shadow-path
tag) and whether the field is a ygot annotation field. -/
structure GoFieldMeta where
  fname : String
  schemaPaths : List (List String)
  shadowSchemaPaths : List (List String)
  isAnnot : Bool

mutual
/-- A node of a generated GoStruct tree: a leaf, a nil struct pointer, a
populated struct, or a YANG list (Go map). -/
inductive GoNode where
  | leaf (v : LeafVal)
  | nilStruct
  | structNode (fields : GoFields)
  | mapNode (entries : GoEntries)

/-- The field list of a struct. -/
inductive GoFields where
  | nil
  | cons (meta : GoFieldMeta) (node : GoNode) (rest : GoFields)

/-- The entry list of a YANG list: each entry has its key-map capability
and its own fields. -/
inductive GoEntries where
  | nil
  | cons (key : KeyHelperEntry) (fields : GoFields) (rest : GoEntries)
end

/-- The schema-path computation of findSetIterFunc: shadow paths are tried
first under PreferShadowPath, the path tag otherwise; an empty result is
an error; MapToSinglePath collapses the set to its least specific path. -/
def fieldSchemaPaths (pathOpt : Option DiffPathOptL) (f : GoFieldMeta) : Except String (List (List String)) :=
  let sp1 := match pathOpt with
    | some o => if o.preferShadowPath then f.shadowSchemaPaths else []
    | none => []
  let sp2 := if sp1 = [] then f.schemaPaths else sp1
  if sp2 = [] then .error "invalid schema path"
  else
    match pathOpt with
    | some o => .ok (if o.mapToSinglePath then collapseToSinglePath sp2 else sp2)
    | none => .ok sp2

/-- nodeValuePath from diff.go for a non-list-entry field: a node whose
parent carries no annotation gets the root path of its schema paths,
otherwise its schema paths are appended to the parent annotation. -/
def nodeValuePathField (parent : Option PathSpecL) (sp : List (List String)) : PathSpecL :=
  match parent with
  | none => nodeRootPath sp
  | some cp => nodeChildPath cp sp

/-- nodeValuePath from diff.go for a list entry (a KeyHelperGoStruct): the
missing-parent-annotation case again yields the root path, and otherwise
nodeMapPath attaches the entry keys to the parent addresses. -/
def nodeValuePathEntry (parent : Option PathSpecL) (sp : List (List String)) (key : KeyHelperEntry) : Except String PathSpecL :=
  match parent with
  | none => .ok (nodeRootPath sp)
  | some cp => nodeMapPath key (some cp)

/-- The duplicate-suppression key of findSetLeaves: the sorted string
forms of the addresses of a pathSpec, joined with slashes. -/
def canonicalKey (vp : PathSpecL) : String :=
  joinStrings "/" (sortStrings (vp.gNMIPaths.map pathToStringL))

/-- The state threaded through the walk of findSetLeaves: the processed
canonical keys and the recorded pathSpec-to-value entries (the out map,
keyed in Go by the pathSpec pointer, hence one fresh entry per recording). -/
structure WalkSt where
  processed : List String
  out : List (PathSpecL × Value)

/-- The value-recording step of findSetIterFunc: struct and map values are
skipped, an unset leaf is skipped, a set pointer leaf is recorded, and an
enum is recorded only when non-zero. -/
def recordLeaf (st : WalkSt) (vp : PathSpecL) : GoNode → WalkSt
  | .leaf .unset => st
  | .leaf (.val v) => ⟨st.processed, st.out ++ [(vp, v)]⟩
  | .leaf (.enum i) => if i = 0 then st else ⟨st.processed, st.out ++ [(vp, Value.enumV i)]⟩
  | .nilStruct => st
  | .structNode _ => st
  | .mapNode _ => st

mutual
/-- Walk the fields of a struct in order, threading the state. -/
def walkFields (pathOpt : Option DiffPathOptL) (parent : Option PathSpecL) (fs : GoFields) (st : WalkSt) : Except String WalkSt :=
  match fs with
  | .nil => .ok st
  | .cons f node rest => do
    let st2 ← walkField pathOpt parent f node st
    walkFields pathOpt parent rest st2

/-- findSetIterFunc from diff.go for one field: annotation fields are
skipped; the schema paths and the pathSpec are computed; a field whose
canonical key was already processed is not recorded and leaves no
annotation for its children (they then fall back to root paths, as
nodeValuePath does on a missing parent annotation); otherwise the key is
marked processed and a set leaf value is recorded.  The children below
the field (the recursion performed by util.ForEachDataField) are then
walked under this field's pathSpec: nothing below a leaf or a nil struct
pointer, the fields of a struct, the entries of a map. -/
def walkField (pathOpt : Option DiffPathOptL) (parent : Option PathSpecL) (f : GoFieldMeta) (node : GoNode) (st : WalkSt) : Except String WalkSt :=
  if f.isAnnot then .ok st
  else do
    let sp ← fieldSchemaPaths pathOpt f
    let vp := nodeValuePathField parent sp
    let key := canonicalKey vp
    let dup := st.processed.contains key
    let pc : Option PathSpecL := if dup then none else some vp
    let st2 := if dup then st else recordLeaf ⟨st.processed ++ [key], st.out⟩ vp node
    match node with
    | .leaf _ => .ok st2
    | .nilStruct => .ok st2
    | .structNode fields => walkFields pathOpt pc fields st2
    | .mapNode entries => walkEntries pathOpt pc f entries st2

/-- findSetIterFunc for the entries of a map field: each entry recomputes
the schema paths from the map field it inherits its StructField from,
obtains its pathSpec through the list-entry branch of nodeValuePath, is
itself never recorded (it is a struct), and has its fields walked under
its pathSpec, subject to the same duplicate suppression as fields. -/
def walkEntries (pathOpt : Option DiffPathOptL) (mapParent : Option PathSpecL) (f : GoFieldMeta) (es : GoEntries) (st : WalkSt) : Except String WalkSt :=
  match es with
  | .nil => .ok st
  | .cons key fields rest => do
    let sp ← fieldSchemaPaths pathOpt f
    let vp ← nodeValuePathEntry mapParent sp key
    let ck := canonicalKey vp
    let st3 ←
      if st.processed.contains ck then
        walkFields pathOpt none fields st
      else
        walkFields pathOpt (some vp) fields ⟨st.processed ++ [ck], st.out⟩
    walkEntries pathOpt mapParent f rest st3
end

/-- A GoStruct tree root, with the concrete type name used by the type
check of Diff. -/
structure GoStructR where
  typeName : String
  fields : GoFields

/-- findSetLeaves from diff.go: walk the whole tree once and return the
pathSpec-to-value map of the set leaves. -/
def findSetLeavesL (s : GoStructR) (opts : List DiffOptL) : Except String (List (PathSpecL × Value)) := do
  let st ← walkFields (hasDiffPathOpt opts) none s.fields ⟨[], []⟩
  .ok st.out

/-- pathInfo from diff.go: the value and one concrete path for a string
path key. -/
structure PathInfoL where
  val : Value
  path : GPath
deriving DecidableEq

/-- Go map assignment on the string-keyed path map: replace the binding
when the key exists, append it otherwise. -/
def strMapUpsert : List (String × PathInfoL) → String → PathInfoL → List (String × PathInfoL)
  | [], k, v => [(k, v)]
  | (k1, v1) :: rest, k, v =>
    if k1 = k then (k, v) :: rest else (k1, v1) :: strMapUpsert rest k v

/-- Go map lookup on the string-keyed path map. -/
def strMapLookup : List (String × PathInfoL) → String → Option PathInfoL
  | [], _ => none
  | (k1, v1) :: rest, k => if k1 = k then some v1 else strMapLookup rest k

/-- Inner loop of toStringPathMap: enter every address of one pathSpec
into the string map, each carrying the value and its own concrete path. -/
def toStringPathMapEntry (m : List (String × PathInfoL)) (paths : List GPath) (v : Value) : List (String × PathInfoL) :=
  match paths with
  | [] => m
  | p :: ps => toStringPathMapEntry (strMapUpsert m (pathToStringL p) ⟨v, p⟩) ps v

/-- Outer loop of toStringPathMap over the pathSpec-to-value entries. -/
def toStringPathMapGo (m : List (String × PathInfoL)) : List (PathSpecL × Value) → List (String × PathInfoL)
  | [] => m
  | (vp, v) :: rest => toStringPathMapGo (toStringPathMapEntry m vp.gNMIPaths v) rest

/-- toStringPathMap from diff.go: convert the pathSpec-to-value map into a
string-path-to-pathInfo map (PathToString cannot fail on Elem-only paths,
so no error case arises in this model). -/
def toStringPathMapL (l : List (PathSpecL × Value)) : List (String × PathInfoL) :=
  toStringPathMapGo [] l

/-- gnmipb.TypedValue as produced by the external encoding layer. -/
structure TypedValueL where
  val : Value
deriving DecidableEq

/-- Modelled from the spec: EncodeTypedValue is part of the external value
encoding layer (spec sections 1 and 6); the payload is preserved. -/
def encodeTypedValueL (v : Value) : Except String TypedValueL :=
  .ok ⟨v⟩

/-- A gNMI Update of the output notification. -/
structure UpdateOut where
  path : GPath
  val : TypedValueL
deriving DecidableEq

/-- The output gNMI Notification of Diff: updates and deletes. -/
structure NotifL where
  update : List UpdateOut
  delete : List GPath
deriving DecidableEq

/-- appendUpdate from diff.go: encode the value and append an update
carrying the pathInfo path. -/
def appendUpdateL (n : NotifL) (pi : PathInfoL) : Except String NotifL := do
  let v ← encodeTypedValueL pi.val
  .ok ⟨n.update ++ [⟨pi.path, v⟩], n.delete⟩

/-- First loop of Diff over the original string map: a path also present
in the modified map with a deeply different value emits an update carrying
the modified pathInfo; a path absent from the modified map emits a delete
carrying the original concrete path. -/
def diffLoopOrig (fm : List (String × PathInfoL)) (n : NotifL) : List (String × PathInfoL) → Except String NotifL
  | [] => .ok n
  | (p, pi) :: rest =>
    match strMapLookup fm p with
    | some mi =>
      if pi.val = mi.val then diffLoopOrig fm n rest
      else do
        let n2 ← appendUpdateL n mi
        diffLoopOrig fm n2 rest
    | none => diffLoopOrig fm ⟨n.update, n.delete ++ [pi.path]⟩ rest

/-- Second loop of Diff over the modified string map: a path absent from
the original map emits an update (an addition). -/
def diffLoopAdd (fo : List (String × PathInfoL)) (n : NotifL) : List (String × PathInfoL) → Except String NotifL
  | [] => .ok n
  | (p, mi) :: rest =>
    match strMapLookup fo p with
    | some _ => diffLoopAdd fo n rest
    | none => do
      let n2 ← appendUpdateL n mi
      diffLoopAdd fo n2 rest

/-- Diff from diff.go: reject differing concrete types, flatten both
trees, convert to string maps, run the original-side loop, and unless
IgnoreAdditions was supplied run the addition loop. -/
def Diff (original modified : GoStructR) (opts : List DiffOptL) : Except String NotifL :=
  if original.typeName ≠ modified.typeName then
    .error "cannot diff structs of different types"
  else do
    let origLeaves ← findSetLeavesL original opts
    let modLeaves ← findSetLeavesL modified opts
    let origLeavesStr := toStringPathMapL origLeaves
    let modLeavesStr := toStringPathMapL modLeaves
    let n ← diffLoopOrig modLeavesStr ⟨[], []⟩ origLeavesStr
    match hasIgnoreAdditions opts with
    | some _ => .ok n
    | none => diffLoopAdd origLeavesStr n modLeavesStr

/-- The flattened string map of one tree: findSetLeaves followed by
toStringPathMap, exactly as Diff computes it for each side. -/
def flattenStr (s : GoStructR) (opts : List DiffOptL) : Except String (List (String × PathInfoL)) := do
  let leaves ← findSetLeavesL s opts
  .ok (toStringPathMapL leaves)

/- ------------------------------------------------------------------ -/
/- Definitions used by the claim statements and witnesses             -/
/- ------------------------------------------------------------------ -/

/-- The list name carried by the final element of an address (the name of
the YANG list on the address of its collection field). -/
def lastElemName : GPath → String
  | [] => ""
  | [e] => e.name
  | _ :: e2 :: rest => lastElemName (e2 :: rest)

/-- Formalisation of claim C7 in the words of the spec sentence it cites:
for each address of the owning collection field, append one additional
path element carrying the list name (the name on the final element of the
collection field's address) together with the stringified key mapping.
Written to be compared with nodeMapPath, which is translated from the
source. -/
def nodeMapPathClaimC7 (entry : KeyHelperEntry) (parentPath : Option PathSpecL) : Except String PathSpecL := do
  let keys ← entry.listKeyMap
  let strkeys ← keyMapAsStrings keys
  match parentPath with
  | none => .error "invalid list member with no parent"
  | some pp => .ok ⟨pp.gNMIPaths.map (fun p => p ++ [⟨lastElemName p, strkeys⟩])⟩

/-- Reference recursion for leastSpecificPath: the running shortest path,
replaced only by strictly shorter later paths. -/
def firstMinPath (s : List String) : List (List String) → List String
  | [] => s
  | p :: ps => if p.length < s.length then firstMinPath p ps else firstMinPath s ps

/-- Original tree of the concrete Diff scenario: leaf a set to 1, leaf b
unset. -/
def W1o : GoStructR :=
  ⟨"T", .cons ⟨"A", [["a"]], [], false⟩ (.leaf (.val (.intV 1)))
    (.cons ⟨"B", [["b"]], [], false⟩ (.leaf .unset) .nil)⟩

/-- Modified tree of the concrete Diff scenario: leaf a set to 2, leaf b
set to 5. -/
def W1m : GoStructR :=
  ⟨"T", .cons ⟨"A", [["a"]], [], false⟩ (.leaf (.val (.intV 2)))
    (.cons ⟨"B", [["b"]], [], false⟩ (.leaf (.val (.intV 5))) .nil)⟩

/-- Flattened string map of the original tree of the scenario. -/
def W1fo : List (String × PathInfoL) := [("/a", ⟨.intV 1, [⟨"a", []⟩]⟩)]

/-- Flattened string map of the modified tree of the scenario. -/
def W1fm : List (String × PathInfoL) :=
  [("/a", ⟨.intV 2, [⟨"a", []⟩]⟩), ("/b", ⟨.intV 5, [⟨"b", []⟩]⟩)]

/-- The notification Diff produces for the scenario. -/
def W1n : NotifL :=
  ⟨[⟨[⟨"a", []⟩], ⟨.intV 2⟩⟩, ⟨[⟨"b", []⟩], ⟨.intV 5⟩⟩], []⟩

/-- A tree with one set leaf and one list entry, used for the
diff-of-a-tree-with-itself witness. -/
def W9 : GoStructR :=
  ⟨"S", .cons ⟨"X", [["x"]], [], false⟩ (.leaf (.val (.strV "v")))
    (.cons ⟨"YANGList", [["yang-list"]], [], false⟩
      (.mapNode (.cons ⟨.ok [("key-value", .strK "k")]⟩
        (.cons ⟨"KeyValue", [["key-value"]], [], false⟩ (.leaf (.val (.strV "k"))) .nil)
        .nil))
      .nil)⟩

/- ------------------------------------------------------------------ -/
/- Theorems                                                           -/
/- ------------------------------------------------------------------ -/

/-- C10: for every schema and root tree, applying UnmarshalSetRequest to a
nil SetRequest returns a nil error and leaves the tree completely
unchanged. -/
theorem unmarshalSetRequest_nil_noop (schema : MSchema) (t : MTree) (ef : Bool) :
    unmarshalSetRequestGo schema t none ef = (none, t) := rfl

/-- C2 counterexample: pathSpec.Equal is not set equality over the address
sets.  For p holding the path x and o holding the paths x and y, Equal p o
returns true although the two address sets differ, and Equal o p returns
false, so Equal is not symmetric either. -/
theorem pathSpecEqual_not_set_equality :
    pathSpecEqual (some ⟨[[⟨"x", []⟩]]⟩) (some ⟨[[⟨"x", []⟩], [⟨"y", []⟩]]⟩) = true ∧
    pathSpecEqual (some ⟨[[⟨"x", []⟩], [⟨"y", []⟩]]⟩) (some ⟨[[⟨"x", []⟩]]⟩) = false ∧
    ¬ (∀ x : GPath, x ∈ PathSpecL.gNMIPaths ⟨[[⟨"x", []⟩]]⟩ ↔
        x ∈ PathSpecL.gNMIPaths ⟨[[⟨"x", []⟩], [⟨"y", []⟩]]⟩) := by
  refine ⟨rfl, rfl, fun h => ?_⟩
  have hx := (h [⟨"y", []⟩]).mpr (by simp)
  exact absurd hx (by decide)

/-- C2 (amended): for every pair of non-nil pathSpecs p and o, Equal
returns true if and only if every gNMI path of p occurs among the gNMI
paths of o, i.e. Equal is containment of the address set of the receiver
in that of the argument, not set equality, and it is not symmetric in
general. -/
theorem pathSpecEqual_iff_contained (p o : PathSpecL) :
    pathSpecEqual (some p) (some o) = true ↔
      ∀ x ∈ p.gNMIPaths, x ∈ o.gNMIPaths := by
  unfold pathSpecEqual
  simp [List.all_eq_true, List.any_eq_true]

/-- Concrete application of the containment characterisation of
pathSpec.Equal. -/
theorem pathSpecEqual_iff_contained_witness :
    pathSpecEqual (some ⟨[[⟨"x", []⟩]]⟩) (some ⟨[[⟨"x", []⟩], [⟨"y", []⟩]]⟩) = true ∧
    ∀ x ∈ PathSpecL.gNMIPaths ⟨[[⟨"x", []⟩]]⟩,
      x ∈ PathSpecL.gNMIPaths ⟨[[⟨"x", []⟩], [⟨"y", []⟩]]⟩ :=
  ⟨rfl, (pathSpecEqual_iff_contained ⟨[[⟨"x", []⟩]]⟩ ⟨[[⟨"x", []⟩], [⟨"y", []⟩]]⟩).mp rfl⟩

/-- Reduction of the Except bind on an ok value, used to unfold the
do-notation of the embedded functions. -/
theorem bindOkL {α β γ : Type} (a : α) (f : α → Except γ β) :
    (Except.ok a >>= f : Except γ β) = f a := rfl

/-- Reduction of the Except bind on an error value. -/
theorem bindErrL {α β γ : Type} (e : γ) (f : α → Except γ β) :
    (Except.error e >>= f : Except γ β) = Except.error e := rfl

/-- The relative-path loop of fixSchemaTreePath pops one caller-path
segment for every double-dot token of the remaining parts, wherever that
token occurs, errors as soon as more pops are requested than segments
remain, and appends the non-double-dot tokens in order. -/
theorem fixSchemaTreePathLoop_spec (ps : List String) : ∀ ctx acc : List String,
    fixSchemaTreePathLoop ctx acc ps =
      (if (ps.filter (fun q => q = "..")).length ≤ ctx.length then
        .ok (ctx.take (ctx.length - (ps.filter (fun q => q = "..")).length)
              ++ acc ++ ps.filter (fun q => ¬ q = ".."))
      else
        .error "invalid path specified, tries to recurse above the root") := by
  induction ps with
  | nil =>
    intro ctx acc
    simp [fixSchemaTreePathLoop]
  | cons p ps ih =>
    intro ctx acc
    by_cases hp : p = ".."
    · subst hp
      have hc2 : ((".." :: ps).filter (fun q => q = "..")).length
          = (ps.filter (fun q => q = "..")).length + 1 := by
        simp [List.filter_cons]
      have hn2 : (".." :: ps).filter (fun q => ¬ q = "..")
          = ps.filter (fun q => ¬ q = "..") := by
        simp [List.filter_cons]
      cases ctx with
      | nil =>
        rw [show fixSchemaTreePathLoop [] acc (".." :: ps)
            = .error "invalid path specified, tries to recurse above the root" from by
          simp [fixSchemaTreePathLoop]]
        rw [hc2, if_neg (by simp)]
      | cons c cs =>
        rw [show fixSchemaTreePathLoop (c :: cs) acc (".." :: ps)
            = fixSchemaTreePathLoop (c :: cs).dropLast acc ps from by
          simp [fixSchemaTreePathLoop]]
        rw [ih]
        have hd : (c :: cs).dropLast.length = cs.length := by simp
        rw [hd, hc2, hn2]
        simp only [List.length_cons]
        by_cases hcond : (ps.filter (fun q => q = "..")).length ≤ cs.length
        · rw [if_pos hcond, if_pos (by omega)]
          have harith : cs.length + 1 - ((ps.filter (fun q => q = "..")).length + 1)
              = cs.length - (ps.filter (fun q => q = "..")).length := by omega
          rw [harith, List.dropLast_eq_take, List.take_take]
          have hmin : min (cs.length - (ps.filter (fun q => q = "..")).length)
              ((c :: cs).length - 1) = cs.length - (ps.filter (fun q => q = "..")).length := by
            simp only [List.length_cons]
            omega
          rw [hmin]
        · rw [if_neg hcond, if_neg (by omega)]
    · have hstep : fixSchemaTreePathLoop ctx acc (p :: ps)
          = fixSchemaTreePathLoop ctx (acc ++ [p]) ps := by
        cases ctx <;> simp [fixSchemaTreePathLoop, hp]
      have hc2 : (p :: ps).filter (fun q => q = "..") = ps.filter (fun q => q = "..") := by
        simp [List.filter_cons, hp]
      have hn2 : (p :: ps).filter (fun q => ¬ q = "..")
          = p :: ps.filter (fun q => ¬ q = "..") := by
        simp [List.filter_cons, hp]
      rw [hstep, ih, hc2, hn2]
      by_cases hcond : (ps.filter (fun q => q = "..")).length ≤ ctx.length
      · rw [if_pos hcond, if_pos hcond]
        simp
      · rw [if_neg hcond, if_neg hcond]

/-- Unfolding of fixSchemaTreePath once the sanitised parts list is known
to be non-empty. -/
theorem fixSchemaTreePath_eq_of_parts (path : String) (caller : Option CallerEntry)
    (p0 : String) (rest : List String)
    (hparts : removeXPATHNamespaces (splitXPATHParts path) = .ok (p0 :: rest)) :
    fixSchemaTreePath path caller =
      (if p0 ≠ ".." then
        if p0 = "" then .ok rest
        else .error "path statement has to begin with either double-dot-slash or slash"
      else
        match caller with
        | none => .error "calling node must be specified when mapping relative path"
        | some c =>
          if (splitOnChar '/' c.schemaTreePath).length < 2 then
            .error "invalid calling node, was a module"
          else
            fixSchemaTreePathLoop ((splitOnChar '/' c.schemaTreePath).drop 2) [] (p0 :: rest)) := by
  unfold fixSchemaTreePath
  rw [hparts, bindOkL]

/-- C6 counterexample: the claim resolves double-dot tokens only while
they lead the path, leaving interior ones as ordinary appended tokens;
the code pops a caller segment for every double-dot token wherever it
occurs.  On the path ../a/../b with context /mod/x/y the code produces
a/b while the claim produces x/a/../b. -/
theorem fixSchemaTreePath_interior_dotdot_counterexample :
    fixSchemaTreePath "../a/../b" (some ⟨"/mod/x/y"⟩) = .ok ["a", "b"] ∧
    fixSchemaTreePathClaimC6 "../a/../b" (some ⟨"/mod/x/y"⟩) = .ok ["x", "a", "..", "b"] ∧
    (["a", "b"] : List String) ≠ ["x", "a", "..", "b"] :=
  ⟨rfl, rfl, by decide⟩

/-- C6 (amended): for every leafref path whose first token is not empty,
the first token must be a double-dot (otherwise an error); with a nil
context entry, or a context entry whose normalized path splits into fewer
than two segments (a module root), resolution is an error; otherwise the
walk pops one segment of the context path per double-dot token WHEREVER
the token occurs in the path, fails if the pops outnumber the context
segments, and appends the non-double-dot tokens in order to the reduced
context path. -/
theorem fixSchemaTreePath_relative_resolution
    (path : String) (caller : Option CallerEntry) (p0 : String) (rest : List String)
    (hparts : removeXPATHNamespaces (splitXPATHParts path) = .ok (p0 :: rest))
    (hne : p0 ≠ "") :
    (p0 ≠ ".." → fixSchemaTreePath path caller =
        .error "path statement has to begin with either double-dot-slash or slash") ∧
    (p0 = ".." → caller = none → fixSchemaTreePath path caller =
        .error "calling node must be specified when mapping relative path") ∧
    (∀ c, p0 = ".." → caller = some c →
        (splitOnChar '/' c.schemaTreePath).length < 2 →
        fixSchemaTreePath path caller = .error "invalid calling node, was a module") ∧
    (∀ c, p0 = ".." → caller = some c →
        ¬ (splitOnChar '/' c.schemaTreePath).length < 2 →
        fixSchemaTreePath path caller =
          (if ((splitOnChar '/' c.schemaTreePath).drop 2).length <
              ((p0 :: rest).filter (fun q => q = "..")).length then
            .error "invalid path specified, tries to recurse above the root"
          else
            .ok ((((splitOnChar '/' c.schemaTreePath).drop 2).take
                    ((((splitOnChar '/' c.schemaTreePath).drop 2)).length -
                      ((p0 :: rest).filter (fun q => q = "..")).length))
                  ++ (p0 :: rest).filter (fun q => ¬ q = "..")))) := by
  have heq := fixSchemaTreePath_eq_of_parts path caller p0 rest hparts
  refine ⟨?_, ?_, ?_, ?_⟩
  · intro h0
    rw [heq]
    simp [h0, hne]
  · intro h0 hc
    subst hc
    rw [heq]
    simp [h0]
  · intro c h0 hc hlen
    subst hc
    rw [heq]
    simp [h0, hlen]
  · intro c h0 hc hlen
    subst hc
    subst h0
    simp only [heq, ne_eq, not_true_eq_false, if_false, if_neg hlen]
    rw [fixSchemaTreePathLoop_spec]
    by_cases hcond : (((".." :: rest).filter (fun q => q = "..")).length
        ≤ ((splitOnChar '/' c.schemaTreePath).drop 2).length)
    · rw [if_pos hcond, if_neg (by omega)]
      simp
    · rw [if_neg hcond, if_pos (by omega)]

/-- Concrete application of the relative-resolution characterisation: the
path ../../c/d resolved against context /mod/x/y pops both context
segments and yields c/d. -/
theorem fixSchemaTreePath_relative_resolution_witness :
    removeXPATHNamespaces (splitXPATHParts "../../c/d") = .ok ["..", "..", "c", "d"] ∧
    (".." : String) ≠ "" ∧
    fixSchemaTreePath "../../c/d" (some ⟨"/mod/x/y"⟩) = .ok ["c", "d"] := by
  have h := (fixSchemaTreePath_relative_resolution "../../c/d" (some ⟨"/mod/x/y"⟩) ".."
      ["..", "c", "d"] rfl (by decide)).2.2.2 ⟨"/mod/x/y"⟩ rfl rfl (by decide)
  exact ⟨rfl, by decide, h.trans rfl⟩

/-- setLastKey rewrites only the final element of a non-empty path: it
keeps every earlier element and replaces the final element by one with
the same name and the supplied key map. -/
theorem setLastKey_eq_dropLast_append (ks : List (String × String)) :
    ∀ (p : GPath) (h : p ≠ []),
      setLastKey p ks = p.dropLast ++ [⟨(p.getLast h).name, ks⟩] := by
  intro p
  induction p with
  | nil => intro h; exact absurd rfl h
  | cons e p ih =>
    intro h
    cases p with
    | nil => simp [setLastKey]
    | cons e2 p2 =>
      have hne : e2 :: p2 ≠ [] := by simp
      rw [show setLastKey (e :: e2 :: p2) ks = e :: setLastKey (e2 :: p2) ks from rfl]
      rw [ih hne]
      rw [List.getLast_cons hne]
      simp

/-- C7 counterexample: the claim forms a list-entry address by appending a
new element carrying the list name and keys to each address of the owning
collection field; the code instead attaches the keys to the final element
already present (which already carries the list name).  On a collection
field addressed by yang-list with key-value k, the code yields the
one-element address with the key attached while the claim yields a
two-element address repeating the list name. -/
theorem nodeMapPath_append_counterexample :
    nodeMapPath ⟨.ok [("key-value", KeyVal.strK "k")]⟩ (some ⟨[[⟨"yang-list", []⟩]]⟩) =
      .ok ⟨[[⟨"yang-list", [("key-value", "k")]⟩]]⟩ ∧
    nodeMapPathClaimC7 ⟨.ok [("key-value", KeyVal.strK "k")]⟩ (some ⟨[[⟨"yang-list", []⟩]]⟩) =
      .ok ⟨[[⟨"yang-list", []⟩, ⟨"yang-list", [("key-value", "k")]⟩]]⟩ ∧
    (⟨[[⟨"yang-list", [("key-value", "k")]⟩]]⟩ : PathSpecL) ≠
      ⟨[[⟨"yang-list", []⟩, ⟨"yang-list", [("key-value", "k")]⟩]]⟩ :=
  ⟨rfl, rfl, by decide⟩

/-- C7 (amended): the PathSpec of a list entry is formed by taking each
address in the PathSpec of the owning collection field (whose final
element already carries the list name) and attaching the entry's
stringified key mapping to that final element, keeping its name and all
earlier elements; an entry whose key mapping cannot be obtained or
stringified causes an error, as does a missing parent path. -/
theorem nodeMapPath_sets_key_on_final_element :
    (∀ (entry : KeyHelperEntry) (pp : Option PathSpecL) (e : String),
        entry.listKeyMap = .error e → nodeMapPath entry pp = .error e) ∧
    (∀ (entry : KeyHelperEntry) (pp : Option PathSpecL) (keys) (e : String),
        entry.listKeyMap = .ok keys → keyMapAsStrings keys = .error e →
        nodeMapPath entry pp = .error e) ∧
    (∀ (entry : KeyHelperEntry) (keys) (strkeys : List (String × String)),
        entry.listKeyMap = .ok keys → keyMapAsStrings keys = .ok strkeys →
        nodeMapPath entry none = .error "invalid list member with no parent") ∧
    (∀ (entry : KeyHelperEntry) (pp : PathSpecL) (keys) (strkeys : List (String × String)),
        entry.listKeyMap = .ok keys → keyMapAsStrings keys = .ok strkeys →
        nodeMapPath entry (some pp) = .ok ⟨pp.gNMIPaths.map (fun p => setLastKey p strkeys)⟩) ∧
    (∀ (ks : List (String × String)) (p : GPath) (h : p ≠ []),
        setLastKey p ks = p.dropLast ++ [⟨(p.getLast h).name, ks⟩]) := by
  refine ⟨?_, ?_, ?_, ?_, setLastKey_eq_dropLast_append⟩
  · intro entry pp e h
    simp [nodeMapPath, h, bindErrL]
  · intro entry pp keys e h1 h2
    simp [nodeMapPath, h1, h2, bindOkL, bindErrL]
  · intro entry keys strkeys h1 h2
    simp [nodeMapPath, h1, h2, bindOkL]
  · intro entry pp keys strkeys h1 h2
    simp [nodeMapPath, h1, h2, bindOkL]

/-- Concrete application of the key-attachment characterisation: a
two-element collection address c/l with key k1 = 7 becomes c/l with the
key attached to the l element. -/
theorem nodeMapPath_sets_key_witness :
    (⟨.ok [("k1", KeyVal.intK 7)]⟩ : KeyHelperEntry).listKeyMap = .ok [("k1", KeyVal.intK 7)] ∧
    keyMapAsStrings [("k1", KeyVal.intK 7)] = .ok [("k1", "7")] ∧
    nodeMapPath ⟨.ok [("k1", KeyVal.intK 7)]⟩ (some ⟨[[⟨"c", []⟩, ⟨"l", []⟩]]⟩) =
      .ok ⟨[[⟨"c", []⟩, ⟨"l", [("k1", "7")]⟩]]⟩ := by
  have h := nodeMapPath_sets_key_on_final_element.2.2.2.1
    ⟨.ok [("k1", KeyVal.intK 7)]⟩ ⟨[[⟨"c", []⟩, ⟨"l", []⟩]]⟩
    [("k1", KeyVal.intK 7)] [("k1", "7")] rfl rfl
  exact ⟨rfl, rfl, h.trans rfl⟩

/-- The loop of leastSpecificPath started on a non-nil accumulator equals
the reference recursion firstMinPath. -/
theorem leastSpecificPathLoop_eq_firstMin (ps : List (List String)) : ∀ s : List String,
    leastSpecificPathLoop (some s) ps = some (firstMinPath s ps) := by
  induction ps with
  | nil => intro s; rfl
  | cons p ps ih =>
    intro s
    by_cases h : p.length < s.length <;>
      simp [leastSpecificPathLoop, firstMinPath, h, ih]

/-- firstMinPath s ps is an element of s :: ps of minimal length, and
every element strictly before its position is strictly longer (so it is
the first element of minimal length). -/
theorem firstMinPath_spec (ps : List (List String)) : ∀ s : List String,
    ∃ l1 l2, s :: ps = l1 ++ firstMinPath s ps :: l2 ∧
      (∀ q ∈ l1, (firstMinPath s ps).length < q.length) ∧
      (∀ q ∈ s :: ps, (firstMinPath s ps).length ≤ q.length) := by
  induction ps with
  | nil =>
    intro s
    exact ⟨[], [], by simp [firstMinPath], by simp, by simp [firstMinPath]⟩
  | cons p ps ih =>
    intro s
    by_cases h : p.length < s.length
    · obtain ⟨l1, l2, hsplit, hlt, hmin⟩ := ih p
      have hr : firstMinPath s (p :: ps) = firstMinPath p ps := by
        simp [firstMinPath, h]
      refine ⟨s :: l1, l2, ?_, ?_, ?_⟩
      · rw [hr, List.cons_append, ← hsplit]
      · intro q hq
        rw [hr]
        rcases List.mem_cons.mp hq with hq | hq
        · subst hq
          have hp : (firstMinPath p ps).length ≤ p.length := hmin p (by simp)
          omega
        · exact hlt q hq
      · intro q hq
        rw [hr]
        rcases List.mem_cons.mp hq with hq | hq
        · subst hq
          have hp : (firstMinPath p ps).length ≤ p.length := hmin p (by simp)
          omega
        · exact hmin q hq
    · obtain ⟨l1, l2, hsplit, hlt, hmin⟩ := ih s
      have hr : firstMinPath s (p :: ps) = firstMinPath s ps := by
        simp [firstMinPath, h]
      cases l1 with
      | nil =>
        have hs : firstMinPath s ps = s := by
          have := hsplit
          simp at this
          exact this.1.symm
        refine ⟨[], p :: ps, by simp [hr, hs], by simp, ?_⟩
        intro q hq
        rw [hr]
        rcases List.mem_cons.mp hq with hq | hq
        · subst hq; simp [hs]
        · rcases List.mem_cons.mp hq with hq | hq
          · subst hq
            rw [hs]
            omega
          · exact hmin q (by simp [hq])
      | cons a l1x =>
        have ha : a = s := by
          have := hsplit
          rw [List.cons_append] at this
          exact (List.cons.injEq _ _ _ _ ▸ this).1.symm ▸ rfl
        have hps : ps = l1x ++ firstMinPath s ps :: l2 := by
          have := hsplit
          rw [List.cons_append] at this
          exact (List.cons.injEq _ _ _ _ ▸ this).2
        have hsl : (firstMinPath s ps).length < s.length := by
          have : s ∈ a :: l1x := by rw [ha]; simp
          have := hlt s (by rw [← ha]; simp)
          exact this
        refine ⟨s :: p :: l1x, l2, ?_, ?_, ?_⟩
        · rw [hr, List.cons_append, List.cons_append, ← hps]
        · intro q hq
          rw [hr]
          rcases List.mem_cons.mp hq with hq | hq
          · subst hq; exact hsl
          · rcases List.mem_cons.mp hq with hq | hq
            · subst hq; omega
            · exact hlt q (List.mem_cons_of_mem a hq)
        · intro q hq
          rw [hr]
          rcases List.mem_cons.mp hq with hq | hq
          · subst hq; omega
          · rcases List.mem_cons.mp hq with hq | hq
            · subst hq; omega
            · exact hmin q (by simp [hq])

/-- C8: in single-path mode, a non-empty declared path set is collapsed
before recording to exactly one address: leastSpecificPath returns the
path with the fewest elements, choosing the first one encountered in the
slice when several share the minimal length, findSetLeaves wraps it as
the singleton declared path set, and fieldSchemaPaths (the schema-path
computation of findSetIterFunc) records exactly that singleton. -/
theorem mapToSinglePath_collapses_to_first_shortest (sp : List (List String)) (h : sp ≠ []) :
    ∃ r, leastSpecificPath sp = some r ∧
      collapseToSinglePath sp = [r] ∧
      (∀ q ∈ sp, r.length ≤ q.length) ∧
      (∃ l1 l2, sp = l1 ++ r :: l2 ∧ ∀ q ∈ l1, r.length < q.length) ∧
      (∀ (o : DiffPathOptL) (f : GoFieldMeta), o.mapToSinglePath = true →
        o.preferShadowPath = false → f.schemaPaths = sp →
        fieldSchemaPaths (some o) f = .ok [r]) := by
  cases sp with
  | nil => exact absurd rfl h
  | cons p ps =>
    have hloop : leastSpecificPath (p :: ps) = some (firstMinPath p ps) := by
      have h0 : leastSpecificPathLoop none (p :: ps) = leastSpecificPathLoop (some p) ps := by
        simp [leastSpecificPathLoop]
      rw [leastSpecificPath, h0, leastSpecificPathLoop_eq_firstMin]
    obtain ⟨l1, l2, hsplit, hlt, hmin⟩ := firstMinPath_spec ps p
    refine ⟨firstMinPath p ps, hloop, ?_, ?_, ⟨l1, l2, hsplit, hlt⟩, ?_⟩
    · simp [collapseToSinglePath, hloop]
    · intro q hq
      exact hmin q hq
    · intro o f ho hsh hf
      simp [fieldSchemaPaths, hsh, hf, ho, collapseToSinglePath, hloop]

/-- Concrete application of the collapse characterisation on the path set
config/a, a, b: the collapse keeps exactly the first shortest path a. -/
theorem mapToSinglePath_collapses_witness :
    ([["config", "a"], ["a"], ["b"]] : List (List String)) ≠ [] ∧
    (∃ r, leastSpecificPath [["config", "a"], ["a"], ["b"]] = some r ∧
      collapseToSinglePath [["config", "a"], ["a"], ["b"]] = [r] ∧
      (∀ q ∈ ([["config", "a"], ["a"], ["b"]] : List (List String)), r.length ≤ q.length) ∧
      (∃ l1 l2, ([["config", "a"], ["a"], ["b"]] : List (List String)) = l1 ++ r :: l2 ∧
        ∀ q ∈ l1, r.length < q.length) ∧
      (∀ (o : DiffPathOptL) (f : GoFieldMeta), o.mapToSinglePath = true →
        o.preferShadowPath = false → f.schemaPaths = [["config", "a"], ["a"], ["b"]] →
        fieldSchemaPaths (some o) f = .ok [r])) :=
  ⟨by decide, mapToSinglePath_collapses_to_first_shortest [["config", "a"], ["a"], ["b"]] (by decide)⟩

/-- Lookup in a filtered tree yields nothing when the filter drops every
entry bound to the key. -/
theorem treeLookup_filter_none (f : GPath × Value → Bool) (k : GPath) :
    ∀ t : MTree, (∀ e ∈ t, e.1 = k → f e = false) → treeLookup (t.filter f) k = none := by
  intro t
  induction t with
  | nil => intro _; rfl
  | cons e t ih =>
    intro h
    rw [List.filter_cons]
    by_cases hf : f e = true
    · rw [if_pos hf, treeLookup]
      by_cases hek : e.1 = k
      · rw [h e (by simp) hek] at hf
        exact absurd hf (by simp)
      · rw [if_neg hek]
        exact ih (fun e2 he2 => h e2 (by simp [he2]))
    · rw [if_neg hf]
      exact ih (fun e2 he2 => h e2 (by simp [he2]))

/-- Filtering cannot make a key appear: an absent key stays absent. -/
theorem treeLookup_filter_none_mono (f : GPath × Value → Bool) (k : GPath) :
    ∀ t : MTree, treeLookup t k = none → treeLookup (t.filter f) k = none := by
  intro t
  induction t with
  | nil => intro _; rfl
  | cons e t ih =>
    intro h
    rw [treeLookup] at h
    by_cases hek : e.1 = k
    · rw [if_pos hek] at h
      exact absurd h (by simp)
    · rw [if_neg hek] at h
      rw [List.filter_cons]
      by_cases hf : f e = true
      · rw [if_pos hf, treeLookup, if_neg hek]
        exact ih h
      · rw [if_neg hf]
        exact ih h

/-- Below a deleted subtree nothing remains. -/
theorem treeLookup_deleteSub_of_prefix (t : MTree) (p k : GPath) (h : p <+: k) :
    treeLookup (treeDeleteSub t p) k = none := by
  apply treeLookup_filter_none
  intro e _ hek
  have h2 : p <+: e.1 := by rw [hek]; exact h
  simp [h2]

/-- Deleting a subtree keeps an absent key absent. -/
theorem treeLookup_deleteSub_none_mono (t : MTree) (p k : GPath)
    (h : treeLookup t k = none) : treeLookup (treeDeleteSub t p) k = none :=
  treeLookup_filter_none_mono _ k t h

/-- Setting a different path keeps an absent key absent. -/
theorem treeLookup_upsert_none (t : MTree) (p k : GPath) (v : Value) (hne : k ≠ p)
    (h : treeLookup t k = none) : treeLookup (treeUpsert t p v) k = none := by
  rw [treeUpsert, treeLookup, if_neg (by simpa using fun hc => hne hc.symm)]
  exact treeLookup_filter_none_mono _ k t h

/-- The prefix join preserves the update value. -/
theorem joinPrefixToUpdateM_val (pfx : Option GPath) (u : UpdateM) :
    (joinPrefixToUpdateM pfx u).val = u.val := by
  cases pfx <;> rfl

/-- A successful deleteNodeM is exactly the subtree removal. -/
theorem deleteNodeM_ok (schema : MSchema) (t t3 : MTree) (p : GPath)
    (h : deleteNodeM schema t p = .ok t3) : t3 = treeDeleteSub t p := by
  rw [deleteNodeM] at h
  by_cases hc : p = [] ∨ p ∈ schema.valid
  · rw [if_pos hc] at h
    cases h
    rfl
  · rw [if_neg hc] at h
    exact absurd h (by simp)

/-- A successful setNodeM either upserts the path or, when unknown fields
are tolerated, leaves the tree unchanged. -/
theorem setNodeM_ok (schema : MSchema) (t t4 : MTree) (p : GPath) (v : Value) (ef : Bool)
    (h : setNodeM schema t p v ef = .ok t4) : t4 = treeUpsert t p v ∨ t4 = t := by
  rw [setNodeM] at h
  by_cases hc : p ∈ schema.valid
  · rw [if_pos hc] at h
    cases h
    exact Or.inl rfl
  · rw [if_neg hc] at h
    by_cases hef : ef = true
    · rw [if_pos hef] at h
      cases h
      exact Or.inr rfl
    · rw [if_neg hef] at h
      exact absurd h (by simp)

/-- An absent key stays absent through the rest of a replace loop whose
operation addresses all differ from it. -/
theorem replacePathsGo_preserves_none (schema : MSchema) (pfx : Option GPath) (ef : Bool) :
    ∀ (us : List UpdateM) (t t2 : MTree) (k : GPath),
      replacePathsGo schema t pfx us ef = (none, t2) →
      treeLookup t k = none →
      (∀ u ∈ us, (joinPrefixToUpdateM pfx u).path ≠ k) →
      treeLookup t2 k = none := by
  intro us
  induction us with
  | nil =>
    intro t t2 k h hk _
    simp only [replacePathsGo] at h
    cases h
    exact hk
  | cons u us ih =>
    intro t t2 k h hk hne
    simp only [replacePathsGo] at h
    cases hdel : deleteNodeM schema t (joinPrefixToUpdateM pfx u).path with
    | error e =>
      simp only [hdel] at h
      exact absurd h (by simp)
    | ok t3 =>
      simp only [hdel] at h
      have hk3 : treeLookup t3 k = none := by
        rw [deleteNodeM_ok schema t t3 _ hdel]
        exact treeLookup_deleteSub_none_mono t _ k hk
      cases hset : setNodeM schema t3 (joinPrefixToUpdateM pfx u).path (joinPrefixToUpdateM pfx u).val ef with
      | error e =>
        simp only [hset] at h
        exact absurd h (by simp)
      | ok t4 =>
        simp only [hset] at h
        have hk4 : treeLookup t4 k = none := by
          rcases setNodeM_ok schema t3 t4 _ _ ef hset with h4 | h4
          · rw [h4]
            exact treeLookup_upsert_none t3 _ k _ (fun hc2 => hne u (by simp) hc2.symm) hk3
          · rw [h4]
            exact hk3
        exact ih t4 t2 k h hk4 (fun u2 hu2 => hne u2 (by simp [hu2]))

/-- C3: for every replace operation of an EditRequest, the content at the
operation address is deleted before the address is set to the value (a
single replace produces exactly delete-subtree-then-upsert), and hence no
strictly deeper field that occupied that location before the replace
survives into the result of the replace loop unless the request itself
sets it again. -/
theorem replace_deletes_before_set :
    (∀ (schema : MSchema) (t : MTree) (pfx : Option GPath) (a : GPath) (v : Value) (ef : Bool) (t2 : MTree),
        (joinPrefixToUpdateM pfx ⟨a, v⟩).path ∈ schema.valid →
        replacePathsGo schema t pfx [⟨a, v⟩] ef = (none, t2) →
        t2 = treeUpsert (treeDeleteSub t (joinPrefixToUpdateM pfx ⟨a, v⟩).path)
              (joinPrefixToUpdateM pfx ⟨a, v⟩).path v) ∧
    (∀ (schema : MSchema) (t : MTree) (pfx : Option GPath) (us : List UpdateM) (ef : Bool)
        (t2 : MTree) (k : GPath),
        replacePathsGo schema t pfx us ef = (none, t2) →
        (∀ u ∈ us, (joinPrefixToUpdateM pfx u).path ≠ k) →
        (∃ u ∈ us, (joinPrefixToUpdateM pfx u).path <+: k) →
        treeLookup t2 k = none) := by
  constructor
  · intro schema t pfx a v ef t2 hv h
    have hdel : deleteNodeM schema t (joinPrefixToUpdateM pfx ⟨a, v⟩).path
        = .ok (treeDeleteSub t (joinPrefixToUpdateM pfx ⟨a, v⟩).path) := by
      rw [deleteNodeM, if_pos (Or.inr hv)]
    have hset : setNodeM schema (treeDeleteSub t (joinPrefixToUpdateM pfx ⟨a, v⟩).path)
        (joinPrefixToUpdateM pfx ⟨a, v⟩).path (joinPrefixToUpdateM pfx ⟨a, v⟩).val ef
        = .ok (treeUpsert (treeDeleteSub t (joinPrefixToUpdateM pfx ⟨a, v⟩).path)
            (joinPrefixToUpdateM pfx ⟨a, v⟩).path (joinPrefixToUpdateM pfx ⟨a, v⟩).val) := by
      rw [setNodeM, if_pos hv]
    simp only [replacePathsGo, hdel, hset] at h
    cases h
    rw [joinPrefixToUpdateM_val]
  · intro schema t pfx us ef t2 k h hne hex
    induction us generalizing t with
    | nil => obtain ⟨u, hu, _⟩ := hex; exact absurd hu (by simp)
    | cons u us ih =>
      simp only [replacePathsGo] at h
      cases hdel : deleteNodeM schema t (joinPrefixToUpdateM pfx u).path with
      | error e =>
        simp only [hdel] at h
        exact absurd h (by simp)
      | ok t3 =>
        simp only [hdel] at h
        cases hset : setNodeM schema t3 (joinPrefixToUpdateM pfx u).path (joinPrefixToUpdateM pfx u).val ef with
        | error e =>
          simp only [hset] at h
          exact absurd h (by simp)
        | ok t4 =>
          simp only [hset] at h
          obtain ⟨uw, huw, hpw⟩ := hex
          rcases List.mem_cons.mp huw with huw | huw
          · subst huw
            have hk3 : treeLookup t3 k = none := by
              rw [deleteNodeM_ok schema t t3 _ hdel]
              exact treeLookup_deleteSub_of_prefix t _ k hpw
            have hk4 : treeLookup t4 k = none := by
              rcases setNodeM_ok schema t3 t4 _ _ ef hset with h4 | h4
              · rw [h4]
                exact treeLookup_upsert_none t3 _ k _ (fun hc2 => hne uw (by simp) hc2.symm) hk3
              · rw [h4]
                exact hk3
            exact replacePathsGo_preserves_none schema pfx ef us t4 t2 k h hk4
              (fun u2 hu2 => hne u2 (by simp [hu2]))
          · exact ih t4 h (fun u2 hu2 => hne u2 (by simp [hu2])) ⟨uw, huw, hpw⟩

/-- Concrete application of the replace characterisation: replacing y in a
tree holding y/z removes y/z and leaves exactly y bound to the new value. -/
theorem replace_deletes_before_set_witness :
    (joinPrefixToUpdateM none ⟨[⟨"y", []⟩], Value.intV 9⟩).path ∈
      MSchema.valid ⟨[[⟨"y", []⟩], [⟨"y", []⟩, ⟨"z", []⟩]]⟩ ∧
    replacePathsGo ⟨[[⟨"y", []⟩], [⟨"y", []⟩, ⟨"z", []⟩]]⟩
        [([⟨"y", []⟩, ⟨"z", []⟩], Value.intV 1)] none
        [⟨[⟨"y", []⟩], Value.intV 9⟩] false =
      (none, [([⟨"y", []⟩], Value.intV 9)]) ∧
    treeLookup [([⟨"y", []⟩], Value.intV 9)] [⟨"y", []⟩, ⟨"z", []⟩] = none := by
  refine ⟨by decide, rfl, ?_⟩
  exact replace_deletes_before_set.2 ⟨[[⟨"y", []⟩], [⟨"y", []⟩, ⟨"z", []⟩]]⟩
    [([⟨"y", []⟩, ⟨"z", []⟩], Value.intV 1)] none
    [⟨[⟨"y", []⟩], Value.intV 9⟩] false
    [([⟨"y", []⟩], Value.intV 9)] [⟨"y", []⟩, ⟨"z", []⟩]
    rfl (by decide) ⟨⟨[⟨"y", []⟩], Value.intV 9⟩, by simp, ⟨[⟨"z", []⟩], rfl⟩⟩

/-- A delete batch that succeeds on a first segment continues on the rest
from the state the first segment produced. -/
theorem deletePathsGo_append (schema : MSchema) (pfx : Option GPath) :
    ∀ (ps1 : List GPath) (t t1 : MTree) (ps2 : List GPath),
      deletePathsGo schema t pfx ps1 = (none, t1) →
      deletePathsGo schema t pfx (ps1 ++ ps2) = deletePathsGo schema t1 pfx ps2 := by
  intro ps1
  induction ps1 with
  | nil =>
    intro t t1 ps2 h
    simp only [deletePathsGo] at h
    cases h
    rfl
  | cons p ps ih =>
    intro t t1 ps2 h
    rw [List.cons_append]
    simp only [deletePathsGo] at h ⊢
    cases hdel : deleteNodeM schema t (joinDeletePath pfx p) with
    | error e =>
      simp only [hdel] at h
      exact absurd h (by simp)
    | ok t3 =>
      simp only [hdel] at h ⊢
      exact ih t3 t1 ps2 h

/-- A successful delete batch splits into successful sub-batches. -/
theorem deletePathsGo_append_ok (schema : MSchema) (pfx : Option GPath) :
    ∀ (ps1 : List GPath) (t t2 : MTree) (ps2 : List GPath),
      deletePathsGo schema t pfx (ps1 ++ ps2) = (none, t2) →
      ∃ tm, deletePathsGo schema t pfx ps1 = (none, tm) ∧
        deletePathsGo schema tm pfx ps2 = (none, t2) := by
  intro ps1
  induction ps1 with
  | nil =>
    intro t t2 ps2 h
    exact ⟨t, rfl, h⟩
  | cons p ps ih =>
    intro t t2 ps2 h
    rw [List.cons_append] at h
    simp only [deletePathsGo] at h ⊢
    cases hdel : deleteNodeM schema t (joinDeletePath pfx p) with
    | error e =>
      simp only [hdel] at h
      exact absurd h (by simp)
    | ok t3 =>
      simp only [hdel] at h ⊢
      exact ih t3 t2 ps2 h

/-- A notification batch that succeeds on a first segment continues on the
rest from the state the first segment produced. -/
theorem unmarshalNotificationsGo_append (schema : MSchema) (ef : Bool) :
    ∀ (ns1 : List NotificationM) (t t1 : MTree) (ns2 : List NotificationM),
      unmarshalNotificationsGo schema t ns1 ef = (none, t1) →
      unmarshalNotificationsGo schema t (ns1 ++ ns2) ef
        = unmarshalNotificationsGo schema t1 ns2 ef := by
  intro ns1
  induction ns1 with
  | nil =>
    intro t t1 ns2 h
    simp only [unmarshalNotificationsGo] at h
    cases h
    rfl
  | cons n ns ih =>
    intro t t1 ns2 h
    rw [List.cons_append]
    simp only [unmarshalNotificationsGo] at h ⊢
    cases hreq : unmarshalSetRequestGo schema t (some (reqOfNotification n)) ef with
    | mk oe t3 =>
      cases oe with
      | some e =>
        simp only [hreq] at h
        exact absurd h (by simp)
      | none =>
        simp only [hreq] at h ⊢
        exact ih t3 t1 ns2 h

/-- C4: a batch of operations stops at the first failing operation and
returns its error, and completed sub-operations are not undone: a failing
delete batch returns exactly the tree state produced by the deletes that
preceded the failure, and a failing notification sequence returns exactly
the state produced by the notifications that preceded the failing one
together with that notification's own partial effect. -/
theorem batch_stops_at_first_error_without_rollback :
    (∀ (schema : MSchema) (t : MTree) (pfx : Option GPath) (ps1 : List GPath) (p : GPath)
        (ps2 : List GPath) (e : String) (t1 : MTree),
        deletePathsGo schema t pfx ps1 = (none, t1) →
        deleteNodeM schema t1 (joinDeletePath pfx p) = .error e →
        deletePathsGo schema t pfx (ps1 ++ p :: ps2) = (some e, t1)) ∧
    (∀ (schema : MSchema) (t : MTree) (ef : Bool) (ns1 : List NotificationM)
        (n : NotificationM) (ns2 : List NotificationM) (e : String) (t1 t2 : MTree),
        unmarshalNotificationsGo schema t ns1 ef = (none, t1) →
        unmarshalSetRequestGo schema t1 (some (reqOfNotification n)) ef = (some e, t2) →
        unmarshalNotificationsGo schema t (ns1 ++ n :: ns2) ef = (some e, t2)) := by
  constructor
  · intro schema t pfx ps1 p ps2 e t1 h1 herr
    rw [deletePathsGo_append schema pfx ps1 t t1 (p :: ps2) h1]
    simp only [deletePathsGo, herr]
  · intro schema t ef ns1 n ns2 e t1 t2 h1 herr
    rw [unmarshalNotificationsGo_append schema ef ns1 t t1 (n :: ns2) h1]
    simp only [unmarshalNotificationsGo, herr]

/-- Concrete application of the stop-at-first-error characterisation: the
batch deletes a, then fails on unknown path b; the error is returned and
the tree keeps the state produced by the first delete. -/
theorem batch_stops_at_first_error_witness :
    deletePathsGo ⟨[[⟨"a", []⟩]]⟩ [([⟨"a", []⟩], Value.intV 1)] none [[⟨"a", []⟩]]
      = (none, []) ∧
    deleteNodeM ⟨[[⟨"a", []⟩]]⟩ [] [⟨"b", []⟩] = .error "cannot delete node at unknown path" ∧
    deletePathsGo ⟨[[⟨"a", []⟩]]⟩ [([⟨"a", []⟩], Value.intV 1)] none
        ([[⟨"a", []⟩]] ++ [⟨"b", []⟩] :: [[⟨"a", []⟩]])
      = (some "cannot delete node at unknown path", []) := by
  refine ⟨rfl, rfl, ?_⟩
  exact batch_stops_at_first_error_without_rollback.1 ⟨[[⟨"a", []⟩]]⟩
    [([⟨"a", []⟩], Value.intV 1)] none [[⟨"a", []⟩]] [⟨"b", []⟩] [[⟨"a", []⟩]]
    "cannot delete node at unknown path" [] rfl rfl

/-- C5: an atomic notification is processed as a SetRequest whose delete
list is the notification's delete list with a whole-subject delete (the
empty address) appended, and since the delete phase of a SetRequest runs
before its update phase, once the deletes of such a request succeed
nothing under the subject prefix remains when the updates are applied. -/
theorem atomic_notification_whole_subject_delete :
    (∀ (schema : MSchema) (t : MTree) (ef : Bool) (n : NotificationM)
        (ns : List NotificationM), n.atomic = true →
        unmarshalNotificationsGo schema t (n :: ns) ef =
          (match unmarshalSetRequestGo schema t
              (some ⟨n.pfx, n.delete ++ [([] : GPath)], [], n.update⟩) ef with
           | (some e, t2) => (some e, t2)
           | (none, t2) => unmarshalNotificationsGo schema t2 ns ef)) ∧
    (∀ (schema : MSchema) (t : MTree) (pfx : GPath) (dels : List GPath) (t2 : MTree),
        deletePathsGo schema t (some pfx) (dels ++ [([] : GPath)]) = (none, t2) →
        ∀ k, pfx <+: k → treeLookup t2 k = none) := by
  constructor
  · intro schema t ef n ns h
    simp only [unmarshalNotificationsGo, reqOfNotification, h, if_pos]
  · intro schema t pfx dels t2 h k hk
    obtain ⟨tm, _, hone⟩ := deletePathsGo_append_ok schema (some pfx) dels t t2 [[]] h
    simp only [deletePathsGo] at hone
    cases hdel : deleteNodeM schema tm (joinDeletePath (some pfx) []) with
    | error e =>
      simp only [hdel] at hone
      exact absurd hone (by simp)
    | ok t3 =>
      simp only [hdel] at hone
      cases hone
      rw [deleteNodeM_ok schema tm t2 _ hdel]
      have hj : joinDeletePath (some pfx) [] = pfx := by
        simp [joinDeletePath, joinPathsM]
      rw [hj]
      exact treeLookup_deleteSub_of_prefix tm pfx k hk

/-- Concrete application of the atomic whole-subject delete: after the
delete phase of an atomic request under prefix p, the leaf p/x that the
tree held is gone. -/
theorem atomic_notification_whole_subject_delete_witness :
    (⟨some [⟨"p", []⟩], [], [], true⟩ : NotificationM).atomic = true ∧
    deletePathsGo ⟨[[⟨"p", []⟩]]⟩ [([⟨"p", []⟩, ⟨"x", []⟩], Value.intV 1)]
        (some [⟨"p", []⟩]) ([] ++ [([] : GPath)]) = (none, []) ∧
    treeLookup [] [⟨"p", []⟩, ⟨"x", []⟩] = none := by
  refine ⟨rfl, rfl, ?_⟩
  exact atomic_notification_whole_subject_delete.2 ⟨[[⟨"p", []⟩]]⟩
    [([⟨"p", []⟩, ⟨"x", []⟩], Value.intV 1)] [⟨"p", []⟩] [] [] rfl
    [⟨"p", []⟩, ⟨"x", []⟩] ⟨[⟨"x", []⟩], rfl⟩

/-- Membership in the keys of an upserted string map. -/
theorem strMapUpsert_mem_keys (k2 : String) :
    ∀ (m : List (String × PathInfoL)) (k : String) (v : PathInfoL),
      (k2 ∈ (strMapUpsert m k v).map Prod.fst) ↔ (k2 ∈ m.map Prod.fst ∨ k2 = k) := by
  intro m
  induction m with
  | nil =>
    intro k v
    simp [strMapUpsert]
  | cons e m ih =>
    intro k v
    obtain ⟨k1, v1⟩ := e
    rw [strMapUpsert]
    by_cases h : k1 = k
    · rw [if_pos h]
      subst h
      simp only [List.map_cons, List.mem_cons]
      tauto
    · rw [if_neg h]
      simp only [List.map_cons, List.mem_cons, ih]
      tauto

/-- Upsert keeps the keys of the string map duplicate-free. -/
theorem strMapUpsert_keys_nodup :
    ∀ (m : List (String × PathInfoL)) (k : String) (v : PathInfoL),
      (m.map Prod.fst).Nodup → ((strMapUpsert m k v).map Prod.fst).Nodup := by
  intro m
  induction m with
  | nil =>
    intro k v _
    simp [strMapUpsert]
  | cons e m ih =>
    intro k v h
    obtain ⟨k1, v1⟩ := e
    simp only [List.map_cons, List.nodup_cons] at h
    rw [strMapUpsert]
    by_cases hk : k1 = k
    · rw [if_pos hk]
      subst hk
      simp only [List.map_cons, List.nodup_cons]
      exact h
    · rw [if_neg hk]
      simp only [List.map_cons, List.nodup_cons]
      refine ⟨?_, ih k v h.2⟩
      intro hc
      rcases (strMapUpsert_mem_keys k1 m k v).mp hc with hc | hc
      · exact h.1 hc
      · exact hk hc

/-- The inner loop of toStringPathMap keeps the keys duplicate-free. -/
theorem toStringPathMapEntry_keys_nodup (v : Value) :
    ∀ (paths : List GPath) (m : List (String × PathInfoL)),
      (m.map Prod.fst).Nodup → ((toStringPathMapEntry m paths v).map Prod.fst).Nodup := by
  intro paths
  induction paths with
  | nil => intro m h; exact h
  | cons p ps ih =>
    intro m h
    rw [toStringPathMapEntry]
    exact ih _ (strMapUpsert_keys_nodup m _ _ h)

/-- The outer loop of toStringPathMap keeps the keys duplicate-free. -/
theorem toStringPathMapGo_keys_nodup :
    ∀ (l : List (PathSpecL × Value)) (m : List (String × PathInfoL)),
      (m.map Prod.fst).Nodup → ((toStringPathMapGo m l).map Prod.fst).Nodup := by
  intro l
  induction l with
  | nil => intro m h; exact h
  | cons e l ih =>
    intro m h
    obtain ⟨vp, v⟩ := e
    rw [toStringPathMapGo]
    exact ih _ (toStringPathMapEntry_keys_nodup v vp.gNMIPaths m h)

/-- The string map built by toStringPathMap has duplicate-free keys, as a
Go map does. -/
theorem toStringPathMapL_keys_nodup (l : List (PathSpecL × Value)) :
    ((toStringPathMapL l).map Prod.fst).Nodup :=
  toStringPathMapGo_keys_nodup l [] (by simp)

/-- In a string map with duplicate-free keys, every entry is found by
lookup with its own value. -/
theorem strMapLookup_of_mem :
    ∀ (m : List (String × PathInfoL)), (m.map Prod.fst).Nodup →
      ∀ (p : String) (pi : PathInfoL), (p, pi) ∈ m → strMapLookup m p = some pi := by
  intro m
  induction m with
  | nil =>
    intro _ p pi h
    exact absurd h (by simp)
  | cons e m ih =>
    intro hnd p pi hmem
    obtain ⟨k1, v1⟩ := e
    simp only [List.map_cons, List.nodup_cons] at hnd
    rw [strMapLookup]
    rcases List.mem_cons.mp hmem with hmem | hmem
    · injection hmem with h1 h2
      subst h1
      subst h2
      rw [if_pos rfl]
    · by_cases hk : k1 = p
      · subst hk
        exact absurd (List.mem_map_of_mem Prod.fst hmem) hnd.1
      · rw [if_neg hk]
        exact ih hnd.2 p pi hmem

/-- appendUpdate appends exactly one update carrying the pathInfo path and
the encoded value. -/
theorem appendUpdateL_eq (n : NotifL) (pi : PathInfoL) :
    appendUpdateL n pi = .ok ⟨n.update ++ [⟨pi.path, ⟨pi.val⟩⟩], n.delete⟩ := rfl

/-- The original-side loop of Diff only appends to the notification. -/
theorem diffLoopOrig_mono (fm : List (String × PathInfoL)) :
    ∀ (l : List (String × PathInfoL)) (n n2 : NotifL),
      diffLoopOrig fm n l = .ok n2 →
      (∀ u ∈ n.update, u ∈ n2.update) ∧ (∀ d ∈ n.delete, d ∈ n2.delete) := by
  intro l
  induction l with
  | nil =>
    intro n n2 h
    simp only [diffLoopOrig] at h
    injection h with h
    subst h
    exact ⟨fun u hu => hu, fun d hd => hd⟩
  | cons e l ih =>
    intro n n2 h
    obtain ⟨p, pi⟩ := e
    simp only [diffLoopOrig] at h
    cases hlk : strMapLookup fm p with
    | some mi =>
      simp only [hlk] at h
      by_cases hv : pi.val = mi.val
      · rw [if_pos hv] at h
        exact ih n n2 h
      · rw [if_neg hv, appendUpdateL_eq, bindOkL] at h
        have hr := ih _ n2 h
        exact ⟨fun u hu => hr.1 u (by simp [hu]), fun d hd => hr.2 d hd⟩
    | none =>
      simp only [hlk] at h
      have hr := ih _ n2 h
      exact ⟨fun u hu => hr.1 u hu, fun d hd => hr.2 d (by simp [hd])⟩

/-- The original-side loop of Diff emits, for every entry of the original
map it processes, an update carrying the modified value when the path is
in the modified map with a deeply different value, and a delete carrying
the original concrete path when the path is absent from the modified map. -/
theorem diffLoopOrig_emits (fm : List (String × PathInfoL)) :
    ∀ (l : List (String × PathInfoL)) (n n2 : NotifL),
      diffLoopOrig fm n l = .ok n2 →
      ∀ (p : String) (pi : PathInfoL), (p, pi) ∈ l →
        ((∀ mi, strMapLookup fm p = some mi → ¬ pi.val = mi.val →
            (⟨mi.path, ⟨mi.val⟩⟩ : UpdateOut) ∈ n2.update) ∧
          (strMapLookup fm p = none → pi.path ∈ n2.delete)) := by
  intro l
  induction l with
  | nil =>
    intro n n2 h p pi hmem
    exact absurd hmem (by simp)
  | cons e l ih =>
    intro n n2 h p pi hmem
    obtain ⟨p1, pi1⟩ := e
    simp only [diffLoopOrig] at h
    rcases List.mem_cons.mp hmem with hmem | hmem
    · injection hmem with he1 he2
      subst he1
      subst he2
      cases hlk : strMapLookup fm p with
      | some mi =>
        simp only [hlk] at h
        constructor
        · intro mi2 hmi2 hne
          injection hmi2 with hmi2
          subst hmi2
          by_cases hv : pi.val = mi.val
          · exact absurd hv hne
          · rw [if_neg hv, appendUpdateL_eq, bindOkL] at h
            exact (diffLoopOrig_mono fm l _ n2 h).1 _ (by simp)
        · intro hnone
          exact absurd hnone (by simp)
      | none =>
        simp only [hlk] at h
        constructor
        · intro mi2 hmi2 _
          exact absurd hmi2 (by simp)
        · intro _
          exact (diffLoopOrig_mono fm l _ n2 h).2 pi.path (by simp)
    · cases hlk : strMapLookup fm p1 with
      | some mi =>
        simp only [hlk] at h
        by_cases hv : pi1.val = mi.val
        · rw [if_pos hv] at h
          exact ih n n2 h p pi hmem
        · rw [if_neg hv, appendUpdateL_eq, bindOkL] at h
          exact ih _ n2 h p pi hmem
      | none =>
        simp only [hlk] at h
        exact ih _ n2 h p pi hmem

/-- The addition loop of Diff only appends to the notification. -/
theorem diffLoopAdd_mono (fo : List (String × PathInfoL)) :
    ∀ (l : List (String × PathInfoL)) (n n2 : NotifL),
      diffLoopAdd fo n l = .ok n2 →
      (∀ u ∈ n.update, u ∈ n2.update) ∧ (∀ d ∈ n.delete, d ∈ n2.delete) := by
  intro l
  induction l with
  | nil =>
    intro n n2 h
    simp only [diffLoopAdd] at h
    injection h with h
    subst h
    exact ⟨fun u hu => hu, fun d hd => hd⟩
  | cons e l ih =>
    intro n n2 h
    obtain ⟨p, mi⟩ := e
    simp only [diffLoopAdd] at h
    cases hlk : strMapLookup fo p with
    | some x =>
      simp only [hlk] at h
      exact ih n n2 h
    | none =>
      simp only [hlk] at h
      rw [appendUpdateL_eq, bindOkL] at h
      have hr := ih _ n2 h
      exact ⟨fun u hu => hr.1 u (by simp [hu]), fun d hd => hr.2 d hd⟩

/-- The addition loop of Diff emits an update for every processed entry of
the modified map whose path is absent from the original map. -/
theorem diffLoopAdd_emits (fo : List (String × PathInfoL)) :
    ∀ (l : List (String × PathInfoL)) (n n2 : NotifL),
      diffLoopAdd fo n l = .ok n2 →
      ∀ (p : String) (mi : PathInfoL), (p, mi) ∈ l → strMapLookup fo p = none →
        (⟨mi.path, ⟨mi.val⟩⟩ : UpdateOut) ∈ n2.update := by
  intro l
  induction l with
  | nil =>
    intro n n2 h p mi hmem
    exact absurd hmem (by simp)
  | cons e l ih =>
    intro n n2 h p mi hmem hno
    obtain ⟨p1, mi1⟩ := e
    simp only [diffLoopAdd] at h
    rcases List.mem_cons.mp hmem with hmem | hmem
    · injection hmem with he1 he2
      subst he1
      subst he2
      rw [hno] at h
      simp only at h
      rw [appendUpdateL_eq, bindOkL] at h
      exact (diffLoopAdd_mono fo l _ n2 h).1 _ (by simp)
    · cases hlk : strMapLookup fo p1 with
      | some x =>
        simp only [hlk] at h
        exact ih n n2 h p mi hmem hno
      | none =>
        simp only [hlk] at h
        rw [appendUpdateL_eq, bindOkL] at h
        exact ih _ n2 h p mi hmem hno

/-- The original-side loop leaves the notification untouched when every
processed entry is found in the modified map with the same value. -/
theorem diffLoopOrig_self (fm : List (String × PathInfoL)) :
    ∀ (l : List (String × PathInfoL)) (n : NotifL),
      (∀ e ∈ l, strMapLookup fm e.1 = some e.2) →
      diffLoopOrig fm n l = .ok n := by
  intro l
  induction l with
  | nil => intro n _; rfl
  | cons e l ih =>
    intro n h
    obtain ⟨p, pi⟩ := e
    have hp := h (p, pi) (by simp)
    simp only [diffLoopOrig, hp, if_pos rfl]
    exact ih n (fun e2 he2 => h e2 (by simp [he2]))

/-- The addition loop leaves the notification untouched when every
processed entry is found in the original map. -/
theorem diffLoopAdd_self (fo : List (String × PathInfoL)) :
    ∀ (l : List (String × PathInfoL)) (n : NotifL),
      (∀ e ∈ l, ∃ x, strMapLookup fo e.1 = some x) →
      diffLoopAdd fo n l = .ok n := by
  intro l
  induction l with
  | nil => intro n _; rfl
  | cons e l ih =>
    intro n h
    obtain ⟨p, mi⟩ := e
    obtain ⟨x, hx⟩ := h (p, mi) (by simp)
    simp only [diffLoopAdd, hx]
    exact ih n (fun e2 he2 => h e2 (by simp [he2]))

/-- C1: for every pair of trees of the same concrete type and for every
canonical address present in the original flattened map, Diff emits an
update carrying the modified value when the address is also present in
the modified map with a value that is not deeply equal, and a delete
carrying the original concrete address when the address is absent from
the modified map; and unless the IgnoreAdditions option is supplied it
emits an update for every canonical address present only in the modified
map. -/
theorem diff_emits_updates_and_deletes
    (original modified : GoStructR) (opts : List DiffOptL)
    (fo fm : List (String × PathInfoL)) (n : NotifL)
    (ho : flattenStr original opts = .ok fo)
    (hm : flattenStr modified opts = .ok fm)
    (hd : Diff original modified opts = .ok n) :
    (∀ (p : String) (pi : PathInfoL), (p, pi) ∈ fo →
       ((∀ mi, strMapLookup fm p = some mi → ¬ pi.val = mi.val →
           (⟨mi.path, ⟨mi.val⟩⟩ : UpdateOut) ∈ n.update) ∧
         (strMapLookup fm p = none → pi.path ∈ n.delete))) ∧
    (hasIgnoreAdditions opts = none →
      ∀ (p : String) (mi : PathInfoL), (p, mi) ∈ fm → strMapLookup fo p = none →
        (⟨mi.path, ⟨mi.val⟩⟩ : UpdateOut) ∈ n.update) := by
  rw [Diff] at hd
  by_cases hty : original.typeName ≠ modified.typeName
  · rw [if_pos hty] at hd
    exact absurd hd (by simp)
  · rw [if_neg hty] at hd
    rw [flattenStr] at ho hm
    cases hfo : findSetLeavesL original opts with
    | error e =>
      rw [hfo, bindErrL] at ho
      exact absurd ho (by simp)
    | ok lo =>
      rw [hfo, bindOkL] at ho
      injection ho with ho
      cases hfm : findSetLeavesL modified opts with
      | error e =>
        rw [hfm, bindErrL] at hm
        exact absurd hm (by simp)
      | ok lm =>
        rw [hfm, bindOkL] at hm
        injection hm with hm
        simp only [hfo, hfm, bindOkL] at hd
        rw [ho, hm] at hd
        cases h1 : diffLoopOrig fm ⟨[], []⟩ fo with
        | error e =>
          rw [h1, bindErrL] at hd
          exact absurd hd (by simp)
        | ok n1 =>
          rw [h1, bindOkL] at hd
          cases hia : hasIgnoreAdditions opts with
          | some u =>
            simp only [hia] at hd
            injection hd with hd
            subst hd
            constructor
            · intro p pi hmem
              exact diffLoopOrig_emits fm fo ⟨[], []⟩ n1 h1 p pi hmem
            · intro hnone
              exact absurd hnone (by simp)
          | none =>
            simp only [hia] at hd
            constructor
            · intro p pi hmem
              have he := diffLoopOrig_emits fm fo ⟨[], []⟩ n1 h1 p pi hmem
              have hmono := diffLoopAdd_mono fo fm n1 n hd
              exact ⟨fun mi hmi hne => hmono.1 _ (he.1 mi hmi hne),
                fun hno => hmono.2 _ (he.2 hno)⟩
            · intro _ p mi hmem hno
              exact diffLoopAdd_emits fo fm n1 n hd p mi hmem hno

/-- Concrete application of the Diff emission characterisation on the
scenario original a=1, b unset against modified a=2, b=5: both the changed
value of a and the added b appear as updates. -/
theorem diff_emits_updates_and_deletes_witness :
    flattenStr W1o [] = .ok W1fo ∧ flattenStr W1m [] = .ok W1fm ∧
    Diff W1o W1m [] = .ok W1n ∧
    (⟨[⟨"a", []⟩], ⟨.intV 2⟩⟩ : UpdateOut) ∈ W1n.update ∧
    (⟨[⟨"b", []⟩], ⟨.intV 5⟩⟩ : UpdateOut) ∈ W1n.update := by
  have h := diff_emits_updates_and_deletes W1o W1m [] W1fo W1fm W1n rfl rfl rfl
  refine ⟨rfl, rfl, rfl, ?_, ?_⟩
  · exact (h.1 "/a" ⟨.intV 1, [⟨"a", []⟩]⟩ (by decide)).1
      ⟨.intV 2, [⟨"a", []⟩]⟩ rfl (by decide)
  · exact h.2 rfl "/b" ⟨.intV 5, [⟨"b", []⟩]⟩ (by decide) rfl

/-- C9: diffing a tree against itself, under any option set accepted
without error, returns a notification with no updates and no deletes. -/
theorem diff_self_empty (T : GoStructR) (opts : List DiffOptL) (n : NotifL)
    (h : Diff T T opts = .ok n) : n.update = [] ∧ n.delete = [] := by
  rw [Diff] at h
  rw [if_neg (by simp)] at h
  cases hfs : findSetLeavesL T opts with
  | error e =>
    rw [hfs, bindErrL] at h
    exact absurd h (by simp)
  | ok leaves =>
    simp only [hfs, bindOkL] at h
    have hnd := toStringPathMapL_keys_nodup leaves
    have hself : diffLoopOrig (toStringPathMapL leaves) ⟨[], []⟩ (toStringPathMapL leaves)
        = .ok ⟨[], []⟩ := by
      refine diffLoopOrig_self _ _ _ ?_
      intro e he
      obtain ⟨p, pi⟩ := e
      exact strMapLookup_of_mem _ hnd p pi he
    rw [hself, bindOkL] at h
    cases hia : hasIgnoreAdditions opts with
    | some u =>
      simp only [hia] at h
      injection h with h
      subst h
      exact ⟨rfl, rfl⟩
    | none =>
      simp only [hia] at h
      have hadd : diffLoopAdd (toStringPathMapL leaves) ⟨[], []⟩ (toStringPathMapL leaves)
          = .ok ⟨[], []⟩ := by
        refine diffLoopAdd_self _ _ _ ?_
        intro e he
        obtain ⟨p, pi⟩ := e
        exact ⟨pi, strMapLookup_of_mem _ hnd p pi he⟩
      rw [hadd] at h
      injection h with h
      subst h
      exact ⟨rfl, rfl⟩

/-- Concrete application of the self-diff characterisation on a tree with
a set leaf and a list entry. -/
theorem diff_self_empty_witness :
    Diff W9 W9 [] = .ok ⟨[], []⟩ ∧
    (⟨[], []⟩ : NotifL).update = [] ∧ (⟨[], []⟩ : NotifL).delete = [] := by
  have h := diff_self_empty W9 [] ⟨[], []⟩ rfl
  exact ⟨rfl, h.1, h.2⟩

end Ygot
